import Mathlib

/-
Verification of the xv6-based advisory scheduler repository.

Shallow embedding of:
  - kernel/sysproc.c : sys_set_llm_advice, sys_wait (io_count part),
    sys_pause, sys_sbrk
  - user/llmhelper.c : handle_line
  - user/init.c      : is_advice_line, router_loop
plus the scheduler-side advisory consultation, which lives in proc.c
(not among the provided sources) and is therefore modelled from the spec.

Machine integers: the C `int` is a 32-bit two's-complement integer,
embedded as `Int` with explicit wrap-around (`wrap32`); `uint64`
quantities (process sizes, tick counters at the sbrk boundary) are `Nat`
with explicit `% 2^64` where overflow matters. Syscall return values are
`Int` (the user-level ABI interprets them as signed, `-1` on failure).
-/

/-- Advisory record shared between the injection syscall and the
scheduler, mirroring the extern state declared in kernel/sysproc.c
(llm_recommended_pid, llm_advice_valid, llm_advice_timestamp). -/
structure Advisory where
  llm_recommended_pid : Int
  llm_advice_valid : Bool
  llm_advice_timestamp : Nat
deriving Repr, DecidableEq

/-- Embedding of sys_set_llm_advice from kernel/sysproc.c: given the
user argument `pid`, the current tick counter and the advisory record,
return the syscall result and the new record. The C code rejects
`pid <= 0` with `-1` before touching the record, otherwise overwrites
all three fields under llm_lock and returns `0`. -/
def sys_set_llm_advice (pid : Int) (ticks : Nat) (r : Advisory) : Int × Advisory :=
  if pid ≤ 0 then
    (-1, r)
  else
    (0, { llm_recommended_pid := pid, llm_advice_valid := true,
          llm_advice_timestamp := ticks })

/-- Modelled from the spec: the scheduler's Consult() operation lives in
proc.c, which is not among the provided sources. Per the spec it returns
the recommended pid only if `valid == true` and
`now - timestamp <= STALENESS_WINDOW`, and none otherwise; the window is
a tunable constant, so it is a parameter `w` here. -/
def consult (w : Nat) (r : Advisory) (now : Nat) : Option Int :=
  if r.llm_advice_valid = true ∧ now - r.llm_advice_timestamp ≤ w then
    some r.llm_recommended_pid
  else
    none

/-- Modelled from the spec: step 1 and 2 of the per-core scheduler loop
(also in proc.c, not among the provided sources). If Consult yields a
candidate and it is runnable it is dispatched, otherwise the round-robin
choice `rr` applies. -/
def schedPick (w : Nat) (r : Advisory) (now : Nat) (runnable : Int → Bool)
    (rr : Int) : Int :=
  match consult w r now with
  | some p => if runnable p then p else rr
  | none => rr

/-- C1: sys_set_llm_advice returns -1 iff pid <= 0, and in the failure
case the advisory record is left unchanged from its prior value. -/
theorem sys_set_llm_advice_reject (pid : Int) (t : Nat) (r : Advisory) :
    ((sys_set_llm_advice pid t r).1 = -1 ↔ pid ≤ 0)
    ∧ (pid ≤ 0 → (sys_set_llm_advice pid t r).2 = r) := by
  by_cases hp : pid ≤ 0 <;> simp [sys_set_llm_advice, hp]

theorem sys_set_llm_advice_reject_witness :
    (sys_set_llm_advice 0 7 ⟨9, true, 4⟩).1 = -1
    ∧ (sys_set_llm_advice 0 7 ⟨9, true, 4⟩).2 = ⟨9, true, 4⟩ := by
  have h := sys_set_llm_advice_reject 0 7 ⟨9, true, 4⟩
  exact ⟨h.1.mpr (by decide), h.2 (by decide)⟩

/-- C2: for pid > 0, sys_set_llm_advice overwrites the whole advisory
record with {pid, true, current ticks} and returns 0. -/
theorem sys_set_llm_advice_success (pid : Int) (t : Nat) (r : Advisory)
    (h : 0 < pid) :
    sys_set_llm_advice pid t r = (0, ⟨pid, true, t⟩) := by
  have hp : ¬ pid ≤ 0 := by omega
  simp [sys_set_llm_advice, hp]

theorem sys_set_llm_advice_success_witness :
    sys_set_llm_advice 5 9 ⟨0, false, 0⟩ = (0, ⟨5, true, 9⟩) :=
  sys_set_llm_advice_success 5 9 ⟨0, false, 0⟩ (by decide)

/-- C3: Consult returns the recommended pid iff the record is valid and
now - timestamp is within the staleness window, and when the entry is
stale the scheduler's pick is the round-robin choice, not the advised
pid. -/
theorem consult_spec (w : Nat) (r : Advisory) (now : Nat)
    (runnable : Int → Bool) (rr : Int) :
    ((consult w r now).isSome = true ↔
      (r.llm_advice_valid = true ∧ now - r.llm_advice_timestamp ≤ w))
    ∧ (∀ p, consult w r now = some p → p = r.llm_recommended_pid)
    ∧ (w < now - r.llm_advice_timestamp →
        schedPick w r now runnable rr = rr) := by
  by_cases hc : r.llm_advice_valid = true ∧ now - r.llm_advice_timestamp ≤ w
  · have h1 : consult w r now = some r.llm_recommended_pid := by
      simp only [consult]
      rw [if_pos hc]
    refine ⟨by simp [h1, hc], ?_, ?_⟩
    · intro p hp
      rw [h1] at hp
      exact (Option.some.inj hp).symm
    · intro hw
      exact absurd hc.2 (by omega)
  · have h1 : consult w r now = none := by
      simp only [consult]
      rw [if_neg hc]
    refine ⟨by rw [h1]; simpa using hc, ?_, ?_⟩
    · intro p hp
      rw [h1] at hp
      cases hp
    · intro _
      simp only [schedPick]
      rw [h1]

theorem consult_spec_witness :
    schedPick 2 ⟨5, true, 0⟩ 10 (fun _ => true) 42 = 42 :=
  (consult_spec 2 ⟨5, true, 0⟩ 10 (fun _ => true) 42).2.2 (by decide)

/-- Process-local state relevant to the syscalls modelled here: the
io_count classification counter from the PCB (struct proc). -/
structure ProcSt where
  io_count : Nat
deriving Repr, DecidableEq

/-- Embedding of sys_wait from kernel/sysproc.c up to the call of kwait:
the syscall increments the caller's io_count and then blocks in kwait
(the Reap operation, out of scope). The state passed into kwait is the
returned one. -/
def sys_wait (p : ProcSt) : ProcSt :=
  { p with io_count := p.io_count + 1 }

/-- Embedding of the wait loop of sys_pause from kernel/sysproc.c.
`n` is the (already clamped, cast to uint) tick count, `t0` the tick
value read at entry, `t` the current tick value, and `k t` the caller's
killed flag as observed at the wake with tick value `t`. Each
`sleep(&ticks, &tickslock)` is woken by the next timer tick, after which
the loop re-checks the killed flag before sleeping again. Returns the
syscall result and the tick value at exit. -/
def pauseLoop (n t0 : Nat) (k : Nat → Bool) (t : Nat) : Int × Nat :=
  if h : t - t0 < n then
    if k t then
      (-1, t)
    else
      pauseLoop n t0 k (t + 1)
  else
    (0, t)
termination_by t0 + n - t
decreasing_by omega

/-- Embedding of sys_pause from kernel/sysproc.c: increments io_count,
clamps a negative argument to 0, reads ticks0 and runs the wait loop.
Returns (result, tick value at exit, new io_count). -/
def sys_pause (n : Int) (t0 : Nat) (k : Nat → Bool) (io : Nat) : Int × Nat × Nat :=
  let io2 := io + 1
  let m : Nat := if n < 0 then 0 else n.toNat
  let r := pauseLoop m t0 k t0
  (r.1, r.2, io2)

/-- C5: both sys_wait and sys_pause increment the calling process's
io_count by exactly one (in every outcome of the pause loop, the
increment being performed before the loop can block), and neither ever
decrements it. -/
theorem io_count_increment (p : ProcSt) (n : Int) (t0 : Nat) (k : Nat → Bool) :
    (sys_wait p).io_count = p.io_count + 1
    ∧ (sys_pause n t0 k p.io_count).2.2 = p.io_count + 1
    ∧ p.io_count ≤ (sys_wait p).io_count
    ∧ p.io_count ≤ (sys_pause n t0 k p.io_count).2.2 := by
  refine ⟨rfl, rfl, ?_, ?_⟩ <;> simp [sys_wait, sys_pause]

/-- C6: inside a pause whose deadline has not been reached, a wake that
observes the killed flag makes the call return -1 at once (the exit tick
equals the current tick: the process does not sleep again). -/
theorem pause_killed_returns (n t0 t io : Nat) (k : Nat → Bool)
    (hd : t - t0 < n) (hk : k t = true) :
    pauseLoop n t0 k t = (-1, t)
    ∧ (sys_pause (Int.ofNat n) t0 (fun _ => true) io).1 = -1 := by
  constructor
  · rw [pauseLoop]
    rw [dif_pos hd, if_pos hk]
  · have hn : 0 < n := by omega
    simp only [sys_pause]
    have hm : (if (Int.ofNat n : Int) < 0 then (0 : Nat) else (Int.ofNat n).toNat) = n := by
      simp
    rw [hm, pauseLoop]
    rw [dif_pos (show t0 - t0 < n by omega)]
    simp

theorem pause_killed_returns_witness :
    pauseLoop 3 0 (fun _ => true) 1 = (-1, 1)
    ∧ (sys_pause (Int.ofNat 3) 0 (fun _ => true) 10).1 = -1 :=
  pause_killed_returns 3 0 1 10 (fun _ => true) (by decide) rfl

/-- Closed form of the pause wait loop when the killed flag is never
set: the loop keeps sleeping, advancing one tick per wake, until the
exit test `ticks - ticks0 < n` first fails, and then returns 0. -/
theorem pauseLoop_no_kill_formula (n t0 : Nat) :
    ∀ m t, t0 + n - t = m →
      pauseLoop n t0 (fun _ => false) t
        = (0, if t - t0 < n then t0 + n else t) := by
  intro m
  induction m with
  | zero =>
    intro t ht
    have hd : ¬ t - t0 < n := by omega
    rw [pauseLoop, dif_neg hd, if_neg hd]
  | succ m ih =>
    intro t ht
    by_cases hd : t - t0 < n
    · rw [pauseLoop, dif_pos hd]
      have hrec := ih (t + 1) (by omega)
      simp only [Bool.false_eq_true, if_false]
      rw [hrec]
      have he : (if t + 1 - t0 < n then t0 + n else t + 1) = t0 + n := by
        split <;> omega
      rw [he, if_pos hd]
    · rw [pauseLoop, dif_neg hd, if_neg hd]

/-- C7: a pause(n) with n >= 0 whose caller is never killed returns 0,
and the wait loop exits exactly when ticks - ticks0 >= n: the call
returns with the tick counter advanced by exactly n from the value read
at entry. -/
theorem sys_pause_no_kill (n : Int) (t0 io t : Nat) (hn : 0 ≤ n) :
    sys_pause n t0 (fun _ => false) io = (0, t0 + n.toNat, io + 1)
    ∧ pauseLoop n.toNat t0 (fun _ => false) t
        = (0, if t - t0 < n.toNat then t0 + n.toNat else t) := by
  constructor
  · simp only [sys_pause]
    have hm : (if n < 0 then (0 : Nat) else n.toNat) = n.toNat := by
      rw [if_neg (by omega)]
    rw [hm]
    rw [pauseLoop_no_kill_formula n.toNat t0 (t0 + n.toNat - t0) t0 rfl]
    by_cases h0 : t0 - t0 < n.toNat
    · rw [if_pos h0]
    · rw [if_neg h0]
      have hz : t0 = t0 + n.toNat := by omega
      rw [← hz]
  · exact pauseLoop_no_kill_formula n.toNat t0 (t0 + n.toNat - t) t rfl

theorem sys_pause_no_kill_witness :
    sys_pause 2 5 (fun _ => false) 0 = (0, 7, 1)
    ∧ pauseLoop 2 5 (fun _ => false) 9 = (0, 9) := by
  have h := sys_pause_no_kill 2 5 0 9 (by decide)
  exact ⟨h.1, by simpa using h.2⟩

/-- C8: a pause(n) with n <= 0 clamps the argument to 0 and returns 0
without entering the wait loop (the exit tick equals the entry tick, so
the process never sleeps), even if the caller's killed flag is already
set, because the killed check sits inside the never-entered loop. -/
theorem sys_pause_nonpos (n : Int) (t0 io : Nat) (k : Nat → Bool) (hn : n ≤ 0) :
    sys_pause n t0 k io = (0, t0, io + 1) := by
  simp only [sys_pause]
  have hm : (if n < 0 then (0 : Nat) else n.toNat) = 0 := by
    by_cases h : n < 0
    · rw [if_pos h]
    · rw [if_neg h]
      omega
  rw [hm, pauseLoop]
  rw [dif_neg (show ¬ t0 - t0 < 0 by omega)]

theorem sys_pause_nonpos_witness :
    sys_pause (-3) 4 (fun _ => true) 10 = (0, 4, 11) :=
  sys_pause_nonpos (-3) 4 10 (fun _ => true) (by decide)

/-- Width of the C uint64 type, in which process sizes and the sbrk
address arithmetic wrap. -/
def W64 : Nat := 2 ^ 64

/-- Embedding of sys_sbrk from kernel/sysproc.c. `grow` stands for
growproc (in proc.c, not among the provided sources, and unused on the
lazy path this development reasons about); `eager` is the test
`t == SBRK_EAGER` on the mode argument. The uint64 sum `addr + n` is
taken mod 2^64. Returns the syscall result and the new process size. -/
def sys_sbrk (grow : Int → Nat → Option Nat) (eager : Bool) (n : Int)
    (sz tf : Nat) : Int × Nat :=
  let addr := sz
  if eager = true ∨ n < 0 then
    match grow n sz with
    | none => (-1, sz)
    | some sz2 => (Int.ofNat addr, sz2)
  else
    let a := (addr + n.toNat) % W64
    if a < addr then
      (-1, sz)
    else if tf < a then
      (-1, sz)
    else
      (Int.ofNat addr, a)

/-- C9: on the lazy path (mode not SBRK_EAGER, n >= 0), sys_sbrk
returns -1 and leaves the size unchanged when the uint64 sum addr + n
wraps below addr or exceeds TRAPFRAME (`tf`), and otherwise sets the
size to addr + n and returns the old size addr. -/
theorem sys_sbrk_lazy (grow : Int → Nat → Option Nat) (n : Int)
    (sz tf : Nat) (hn : 0 ≤ n) :
    (((sz + n.toNat) % W64 < sz ∨ tf < (sz + n.toNat) % W64) →
        sys_sbrk grow false n sz tf = (-1, sz))
    ∧ ((sz ≤ (sz + n.toNat) % W64 ∧ (sz + n.toNat) % W64 ≤ tf) →
        sys_sbrk grow false n sz tf = (Int.ofNat sz, (sz + n.toNat) % W64)) := by
  have hb : ¬ ((false : Bool) = true ∨ n < 0) := by
    rintro (h | h)
    · cases h
    · omega
  constructor
  · intro h
    simp only [sys_sbrk]
    rw [if_neg hb]
    rcases h with h | h
    · rw [if_pos h]
    · by_cases h1 : (sz + n.toNat) % W64 < sz
      · rw [if_pos h1]
      · rw [if_neg h1, if_pos h]
  · rintro ⟨h1, h2⟩
    simp only [sys_sbrk]
    rw [if_neg hb, if_neg (by omega), if_neg (by omega)]

theorem sys_sbrk_lazy_witness :
    sys_sbrk (fun _ _ => none) false 5 100 1000 = (Int.ofNat 100, 105) := by
  have h := (sys_sbrk_lazy (fun _ _ => none) 5 100 1000 (by decide)).2
  exact by simpa [W64] using h (by constructor <;> decide)

/-- Characters of the literal "ADVICE:PID=" header that both
user/llmhelper.c and user/init.c match against. -/
def hdrAdvice : List Char := ['A', 'D', 'V', 'I', 'C', 'E', ':', 'P', 'I', 'D', '=']

/-- Digit test of user/llmhelper.c: the C comparisons
`*p >= '0' && *p <= '9'` on the character's code. -/
def isDig (c : Char) : Bool := decide (48 ≤ c.toNat ∧ c.toNat ≤ 57)

/-- Two's-complement wrap of a mathematical integer into the 32-bit C
int range, modelling `pid = pid * 10 + (*p - '0')` overflow. -/
def wrap32 (x : Int) : Int := (x + 2 ^ 31) % 2 ^ 32 - 2 ^ 31

/-- Leading-blank stripping of handle_line:
`while(*line == ' ' || *line == '\t') line++`. The end of the list
stands for the NUL terminator, which stops the loop. -/
def stripLead : List Char → List Char
  | [] => []
  | c :: cs => if c = ' ' ∨ c = '\t' then stripLead cs else c :: cs

/-- Header-matching loop of handle_line: compares the first characters
of `s` against the pattern; a too-short `s` fails because its NUL
terminator differs from every header character. On success returns the
remainder after the header. -/
def matchHdr : List Char → List Char → Option (List Char)
  | [], s => some s
  | _ :: _, [] => none
  | p :: ps, c :: cs => if c = p then matchHdr ps cs else none

/-- Digit-accumulation loop of handle_line:
`while('0' <= *p && *p <= '9') pid = pid*10 + (*p - '0')`, with 32-bit
wrap-around on the accumulator. Stops at the first non-digit. -/
def parseRun : List Char → Int → Int
  | [], acc => acc
  | c :: cs, acc =>
    if isDig c then
      parseRun cs (wrap32 (acc * 10 + ((c.toNat : Int) - 48)))
    else
      acc

/-- Embedding of handle_line from user/llmhelper.c: returns the pid
passed to set_llm_advice, or none when no call is made (missing header,
no digit after the header, or parsed pid <= 0). -/
def handle_line (line : List Char) : Option Int :=
  match matchHdr hdrAdvice (stripLead line) with
  | none => none
  | some p =>
    match p with
    | [] => none
    | c :: _ =>
      if isDig c then
        let pid := parseRun p 0
        if pid ≤ 0 then none else some pid
      else
        none

theorem matchHdr_eq_some : ∀ (ps s r : List Char),
    matchHdr ps s = some r ↔ s = ps ++ r := by
  intro ps
  induction ps with
  | nil =>
    intro s r
    simp [matchHdr]
  | cons p ps ih =>
    intro s r
    cases s with
    | nil => simp [matchHdr]
    | cons c cs =>
      by_cases hc : c = p
      · simp [matchHdr, hc, ih]
      · simp [matchHdr, hc]

theorem parseRun_stop (r : List Char) (acc : Int)
    (hr : ∀ c ∈ r.take 1, isDig c = false) : parseRun r acc = acc := by
  cases r with
  | nil => rfl
  | cons c cs =>
    have hc : isDig c = false := hr c (by simp)
    simp [parseRun, hc]

theorem parseRun_append : ∀ (ds r : List Char),
    (∀ c ∈ ds, isDig c = true) → (∀ c ∈ r.take 1, isDig c = false) →
    ∀ acc, parseRun (ds ++ r) acc = parseRun ds acc := by
  intro ds
  induction ds with
  | nil =>
    intro r _ hr acc
    simpa using parseRun_stop r acc hr
  | cons c cs ih =>
    intro r hds hr acc
    have hc : isDig c = true := hds c (by simp)
    simp only [List.cons_append, parseRun, hc, if_true]
    exact ih r (fun x hx => hds x (by simp [hx])) hr _

theorem takeWhile_all_isDig : ∀ (l : List Char), ∀ c ∈ l.takeWhile isDig,
    isDig c = true := by
  intro l
  induction l with
  | nil => simp
  | cons a as ih =>
    intro c hc
    by_cases ha : isDig a
    · rw [List.takeWhile_cons_of_pos ha] at hc
      rcases List.mem_cons.mp hc with h | h
      · rw [h]; exact ha
      · exact ih c h
    · rw [List.takeWhile_cons_of_neg ha] at hc
      cases hc

theorem dropWhile_head_not_isDig : ∀ (l : List Char),
    ∀ c ∈ (l.dropWhile isDig).take 1, isDig c = false := by
  intro l
  induction l with
  | nil => simp
  | cons a as ih =>
    by_cases ha : isDig a
    · rw [List.dropWhile_cons_of_pos ha]
      exact ih
    · rw [List.dropWhile_cons_of_neg ha]
      intro c hc
      have : c = a := by simpa using hc
      rw [this]
      simpa using ha

/-- C4: handle_line results in a set_llm_advice call exactly when the
line, after leading spaces and tabs, is the header "ADVICE:PID="
followed by a non-empty maximal digit run `ds` (anything after it
ignored) whose 32-bit parse is positive, and the injected pid is that
parse. -/
theorem handle_line_spec (line : List Char) (n : Int) :
    handle_line line = some n ↔
      ∃ ds r, stripLead line = hdrAdvice ++ ds ++ r
        ∧ ds ≠ []
        ∧ (∀ c ∈ ds, isDig c = true)
        ∧ (∀ c ∈ r.take 1, isDig c = false)
        ∧ n = parseRun ds 0
        ∧ 0 < n := by
  constructor
  · intro h
    unfold handle_line at h
    cases hm : matchHdr hdrAdvice (stripLead line) with
    | none =>
      rw [hm] at h
      simp at h
    | some p =>
      rw [hm] at h
      cases p with
      | nil => simp at h
      | cons c cs =>
        by_cases hc : isDig c = true
        · by_cases hpid : parseRun (c :: cs) 0 ≤ 0
          · simp [hc, hpid] at h
          · simp only [hc, if_true, hpid, if_neg, if_false, Option.some.injEq] at h
            have hn : parseRun (c :: cs) 0 = n := h
            refine ⟨(c :: cs).takeWhile isDig, (c :: cs).dropWhile isDig,
              ?_, ?_, ?_, ?_, ?_, ?_⟩
            · rw [List.append_assoc, List.takeWhile_append_dropWhile]
              exact (matchHdr_eq_some hdrAdvice (stripLead line) (c :: cs)).mp hm
            · rw [List.takeWhile_cons_of_pos hc]
              simp
            · exact takeWhile_all_isDig (c :: cs)
            · exact dropWhile_head_not_isDig (c :: cs)
            · rw [← hn]
              conv_lhs => rw [← List.takeWhile_append_dropWhile (p := isDig) (l := c :: cs)]
              exact parseRun_append _ _ (takeWhile_all_isDig (c :: cs))
                (dropWhile_head_not_isDig (c :: cs)) 0
            · omega
        · simp [hc] at h
  · rintro ⟨ds, r, hsl, hne, hds, hr, hn, hpos⟩
    unfold handle_line
    have hm : matchHdr hdrAdvice (stripLead line) = some (ds ++ r) := by
      rw [matchHdr_eq_some, hsl, List.append_assoc]
    rw [hm]
    cases ds with
    | nil => exact absurd rfl hne
    | cons d ds2 =>
      have hd : isDig d = true := hds d (by simp)
      have hpr : parseRun ((d :: ds2) ++ r) 0 = parseRun (d :: ds2) 0 :=
        parseRun_append (d :: ds2) r hds hr 0
      simp only [List.cons_append, hd, if_true]
      rw [← List.cons_append, hpr, ← hn]
      rw [if_neg (by omega)]

theorem handle_line_spec_witness :
    handle_line [' ', 'A', 'D', 'V', 'I', 'C', 'E', ':', 'P', 'I', 'D', '=',
      '1', '2', ' ', 'x'] = some 12 := by
  refine (handle_line_spec _ 12).mpr ⟨['1', '2'], [' ', 'x'], ?_, ?_, ?_, ?_, ?_, ?_⟩
  · decide
  · decide
  · decide
  · decide
  · decide
  · decide

/-- Line-buffer size of the init router (user/init.c), 512; at most
LINE_BUF - 1 characters of a line are kept. -/
def LINE_BUF : Nat := 512

/-- Embedding of is_advice_line from user/init.c: compares the first
characters of the completed line against the "ADVICE:PID=" header; a
shorter line fails because its NUL terminator mismatches. -/
def hdrMatches : List Char → List Char → Bool
  | [], _ => true
  | _ :: _, [] => false
  | p :: ps, c :: cs => if c = p then hdrMatches ps cs else false

def is_advice_line (s : List Char) : Bool := hdrMatches hdrAdvice s

/-- Embedding of router_loop from user/init.c over the console input
stream. `buf` is the partial line assembled so far. A result entry
(d, l) is one completed line `l` forwarded to the llmhelper pipe when
`d = true` and to the shell pipe when `d = false`; characters beyond
LINE_BUF - 1 in one line are dropped. EOF ends the loop without
flushing a partial line (init's router exits). -/
def router_loop : List Char → List Char → List (Bool × List Char)
  | [], _ => []
  | ch :: rest, buf =>
    let c2 := if ch = '\r' then '\n' else ch
    if c2 = '\n' then
      (decide (buf.length > 0) && is_advice_line buf, buf) :: router_loop rest []
    else
      router_loop rest (if buf.length < LINE_BUF - 1 then buf ++ [c2] else buf)

/-- Buffer contents after the router has consumed the characters `raw`
of one line into partial buffer `buf`. -/
def fillBuf (buf raw : List Char) : List Char :=
  List.foldl (fun b ch => if b.length < LINE_BUF - 1 then b ++ [ch] else b) buf raw

theorem hdrMatches_iff : ∀ (ps s : List Char),
    hdrMatches ps s = true ↔ ∃ t, s = ps ++ t := by
  intro ps
  induction ps with
  | nil =>
    intro s
    simp [hdrMatches]
  | cons p ps ih =>
    intro s
    cases s with
    | nil => simp [hdrMatches]
    | cons c cs =>
      by_cases hc : c = p
      · simp [hdrMatches, hc, ih]
      · simp [hdrMatches, hc]

theorem router_emit : ∀ (raw buf rest : List Char),
    ('\n' ∉ raw) → ('\r' ∉ raw) →
    router_loop (raw ++ '\n' :: rest) buf =
      (decide ((fillBuf buf raw).length > 0) && is_advice_line (fillBuf buf raw),
        fillBuf buf raw) :: router_loop rest [] := by
  intro raw
  induction raw with
  | nil =>
    intro buf rest _ _
    simp [router_loop, fillBuf]
  | cons ch cs ih =>
    intro buf rest h1 h2
    have hn : ch ≠ '\n' := fun e => h1 (by simp [e])
    have hr : ch ≠ '\r' := fun e => h2 (by simp [e])
    have hfill : fillBuf buf (ch :: cs)
        = fillBuf (if buf.length < LINE_BUF - 1 then buf ++ [ch] else buf) cs := by
      simp [fillBuf, List.foldl]
    rw [List.cons_append, router_loop]
    simp only [if_neg hr, if_neg hn]
    rw [hfill]
    exact ih _ rest (fun e => h1 (by simp [e])) (fun e => h2 (by simp [e]))

theorem fillBuf_take : ∀ (raw buf : List Char), buf.length ≤ LINE_BUF - 1 →
    fillBuf buf raw = buf ++ raw.take (LINE_BUF - 1 - buf.length) := by
  intro raw
  induction raw with
  | nil =>
    intro buf _
    simp [fillBuf]
  | cons ch cs ih =>
    intro buf h
    by_cases hlt : buf.length < LINE_BUF - 1
    · have hstep : fillBuf buf (ch :: cs) = fillBuf (buf ++ [ch]) cs := by
        simp [fillBuf, List.foldl, hlt]
      rw [hstep, ih (buf ++ [ch]) (by simp; omega)]
      have harr : LINE_BUF - 1 - buf.length = (LINE_BUF - 1 - (buf.length + 1)) + 1 := by
        omega
      simp [harr, List.take_succ_cons, List.append_assoc]
    · have hbe : LINE_BUF - 1 - buf.length = 0 := by omega
      have hstep : fillBuf buf (ch :: cs) = fillBuf buf cs := by
        simp [fillBuf, List.foldl, hlt]
      rw [hstep, ih buf h]
      simp [hbe]

/-- C10: a completed console line `raw` (terminated by newline) makes
the router emit exactly one event, carrying the first LINE_BUF - 1
characters of the line, directed to the llmhelper pipe iff the line is
non-empty and starts with "ADVICE:PID=" (a bare prefix test, no digit
requirement) and to the shell pipe otherwise, empty lines included. -/
theorem router_line_spec (raw rest : List Char)
    (h1 : '\n' ∉ raw) (h2 : '\r' ∉ raw) :
    router_loop (raw ++ '\n' :: rest) [] =
      ((decide (raw ≠ []) && is_advice_line (raw.take (LINE_BUF - 1))),
        raw.take (LINE_BUF - 1)) :: router_loop rest []
    ∧ (is_advice_line (raw.take (LINE_BUF - 1)) = true ↔
        ∃ t, raw.take (LINE_BUF - 1) = hdrAdvice ++ t) := by
  have hf : fillBuf [] raw = raw.take (LINE_BUF - 1) := by
    simpa using fillBuf_take raw [] (by simp)
  constructor
  · rw [router_emit raw [] rest h1 h2, hf]
    have hlen : decide ((raw.take (LINE_BUF - 1)).length > 0) = decide (raw ≠ []) := by
      rw [decide_eq_decide]
      cases raw with
      | nil => simp
      | cons a as => simp [LINE_BUF]
    rw [hlen]
  · exact hdrMatches_iff hdrAdvice _

theorem router_line_spec_witness :
    router_loop ['A', '\n'] [] = [(false, ['A'])] := by
  have h := (router_line_spec ['A'] [] (by decide) (by decide)).1
  exact h.trans (by decide)
